import Mathlib

/-!
Verification of the message-filtering and notification engine of the
telegram-scout-bot repository (`src/server/keywords.js` and
`src/server/monitor.js`), as a shallow embedding in Lean.

Text is modelled as `List Char` (JS strings are sequences of code points;
none of the verified code depends on surrogate-pair subtleties).
JS `Number` similarity thresholds (0.75, 0.8, 0.6) are modelled as exact
fractions, with the comparison `1 - distance/maxLen >= threshold` expressed
over the integers by clearing denominators; the binary floating-point
values used by the engine agree with these fractions except on similarity
scores within one ulp of the threshold, which none of the concrete inputs
below exercise.
-/

/-- Convert a Lean string literal to the `List Char` representation. -/
def strL (s : String) : List Char := s.data

/-- The JS `\s` whitespace class (also the set used by `String.prototype.trim`):
tab, LF, VT, FF, CR, space, NBSP, Ogham space mark, the U+2000–U+200A range,
LS, PS, narrow NBSP, medium mathematical space, ideographic space, BOM. -/
def isJsWs (c : Char) : Bool :=
  c = ' ' || c = '\t' || c = '\n' || c.toNat = 0x0B || c.toNat = 0x0C ||
  c = '\r' || c.toNat = 0xA0 || c.toNat = 0x1680 ||
  (0x2000 ≤ c.toNat && c.toNat ≤ 0x200A) || c.toNat = 0x2028 ||
  c.toNat = 0x2029 || c.toNat = 0x202F || c.toNat = 0x205F ||
  c.toNat = 0x3000 || c.toNat = 0xFEFF

/-- JS `String.prototype.toLowerCase`, restricted to the alphabets the
normalizer can keep: ASCII `A`–`Z`, Cyrillic `А`–`Я` (U+0410–U+042F, each
lowercased by adding 0x20) and `Ё` (U+0401 → U+0451).  Code points outside
these ranges whose JS lowercase form differs are discarded by the
normalizer's character filter in both the model and the source, so mapping
them to themselves is observationally equivalent. -/
def jsToLower (c : Char) : Char :=
  if 'A' ≤ c && c ≤ 'Z' then Char.ofNat (c.toNat + 32)
  else if 'А' ≤ c && c ≤ 'Я' then Char.ofNat (c.toNat + 32)
  else if c = 'Ё' then 'ё'
  else c

/-- ASCII word character, the `\w` class: letters, digits, underscore. -/
def isWordChar (c : Char) : Bool :=
  ('a' ≤ c && c ≤ 'z') || ('A' ≤ c && c ≤ 'Z') || ('0' ≤ c && c ≤ '9') || c = '_'

/-- The `[а-я]` range (U+0430–U+044F) together with the characters it matches
case-insensitively, i.e. `[А-Я]` (U+0410–U+042F).  Note `ё`/`Ё` fall outside. -/
def isCyr (c : Char) : Bool :=
  ('а' ≤ c && c ≤ 'я') || ('А' ≤ c && c ≤ 'Я')

/-- A character retained (not replaced by a space) by the normalizer's
`[^\wа-яa-z\s]/gi` filter. -/
def isKept (c : Char) : Bool := isWordChar c || isCyr c || isJsWs c

/-- JS `String.prototype.trim`: drop leading and trailing whitespace. -/
def jsTrim (l : List Char) : List Char :=
  ((l.dropWhile isJsWs).reverse.dropWhile isJsWs).reverse

/-- Helper for `collapseWs`: the flag records whether the previous character
belonged to a whitespace run whose replacement space was already emitted. -/
def collapseWsAux : Bool → List Char → List Char
  | _, [] => []
  | prevWs, c :: cs =>
    if isJsWs c then
      if prevWs then collapseWsAux true cs else ' ' :: collapseWsAux true cs
    else c :: collapseWsAux false cs

/-- JS `replace(/\s+/g, ' ')`: each maximal whitespace run becomes one space. -/
def collapseWs (l : List Char) : List Char := collapseWsAux false l

/-- `keywords.js` `KeywordMatcher.normalizeText`: lowercase, fold `ё` to `е`,
replace characters outside `{\w, а-я, a-z, \s}` by a space, collapse
whitespace runs, trim. -/
def normalizeText (text : List Char) : List Char :=
  jsTrim (collapseWs
    (((text.map jsToLower).map (fun c => if c = 'ё' then 'е' else c)).map
      (fun c => if isKept c then c else ' ')))

/-- The per-character composite applied by the normalizer's three `replace`
passes: lowercase, fold `ё`, keep-or-space. -/
def normChar (c : Char) : Char :=
  let c2 := if jsToLower c = 'ё' then 'е' else jsToLower c
  if isKept c2 then c2 else ' '

/-- JS `String.prototype.split(' ')` (split on the single space character;
empty segments are kept, and the empty string yields one empty segment). -/
def splitOnSpaceAux (cur : List Char) : List Char → List (List Char)
  | [] => [cur.reverse]
  | c :: rest =>
    if c = ' ' then cur.reverse :: splitOnSpaceAux [] rest
    else splitOnSpaceAux (c :: cur) rest

/-- JS `split(' ')`. -/
def splitOnSpace (l : List Char) : List (List Char) := splitOnSpaceAux [] l

/-- JS `String.prototype.includes`: `needle` occurs contiguously in `hay`
(true for the empty needle). -/
def includesSub (hay needle : List Char) : Bool :=
  (List.range (hay.length + 1)).any (fun i => needle.isPrefixOf (hay.drop i))

/-- Insertion into a JS `Set` modelled as a duplicate-free list in insertion
order. -/
def setAdd (l : List (List Char)) (x : List Char) : List (List Char) :=
  if x ∈ l then l else l ++ [x]

/-- `[...new Set(xs)]`: deduplicate keeping the first occurrence of each
element, preserving insertion order.  `seen` accumulates emitted elements. -/
def dedupFirstAux {α : Type} [DecidableEq α] (seen : List α) : List α → List α
  | [] => []
  | a :: l =>
    if a ∈ seen then dedupFirstAux seen l else a :: dedupFirstAux (a :: seen) l

/-- `[...new Set(xs)]`. -/
def dedupFirst {α : Type} [DecidableEq α] (l : List α) : List α :=
  dedupFirstAux [] l

/-- JS `Array.prototype.join(sep)`. -/
def joinWith (sep : List Char) : List (List Char) → List Char
  | [] => []
  | [w] => w
  | w :: ws => w ++ sep ++ joinWith sep ws

/-- The stop-word set of the `KeywordMatcher` constructor. -/
def stopWords : List (List Char) :=
  [strL "и", strL "в", strL "на", strL "с", strL "по", strL "для", strL "от",
   strL "за", strL "к", strL "из", strL "а", strL "но", strL "или",
   strL "что", strL "как", strL "это", strL "так", strL "же", strL "не",
   strL "да", strL "нет", strL "бы", strL "ли", strL "то", strL "вот",
   strL "ещё", strL "уже", strL "тоже", strL "только", strL "очень",
   strL "может", strL "быть", strL "привет", strL "здравствуйте",
   strL "спасибо", strL "пожалуйста"]

/-- The synonym dictionary of the `KeywordMatcher` constructor, in insertion
order (`Object.entries` enumeration order). -/
def synonymsTable : List (List Char × List (List Char)) :=
  [(strL "программист",
    [strL "разработчик", strL "девелопер", strL "developer", strL "кодер",
     strL "программер", strL "прогер", strL "вайбкодер"]),
   (strL "разработчик",
    [strL "программист", strL "девелопер", strL "developer", strL "кодер",
     strL "программер", strL "прогер", strL "вайбкодер"]),
   (strL "фронтенд",
    [strL "frontend", strL "фронт", strL "верстальщик", strL "react",
     strL "vue", strL "angular"]),
   (strL "бэкенд", [strL "backend", strL "бэк", strL "серверный"]),
   (strL "фулстек", [strL "fullstack", strL "full-stack", strL "фуллстек"]),
   (strL "дизайнер",
    [strL "designer", strL "дизайн", strL "ui", strL "ux",
     strL "уидизайнер", strL "юидизайнер"]),
   (strL "графический", [strL "graphic", strL "графика"]),
   (strL "ищу",
    [strL "нужен", strL "нужна", strL "нужно", strL "требуется",
     strL "looking"]),
   (strL "посоветуйте",
    [strL "порекомендуйте", strL "подскажите", strL "recommend",
     strL "посоветовать"]),
   (strL "маркетолог",
    [strL "marketer", strL "маркетинг", strL "smm", strL "смм",
     strL "таргетолог"]),
   (strL "менеджер", [strL "manager", strL "pm", strL "пм", strL "проджект"])]

/-- The suffix table of the `KeywordMatcher` constructor.  The source sorts
the literal array by descending length with a stable sort; the literal is
already grouped longest-first, so the sorted order equals the literal order. -/
def suffixes : List (List Char) :=
  [strL "ами", strL "ями", strL "ому", strL "ему", strL "ого", strL "его",
   strL "ить", strL "ать", strL "еть",
   strL "ов", strL "ев", strL "ей", strL "ий", strL "ый", strL "ой",
   strL "ая", strL "яя", strL "ое", strL "ее", strL "ам", strL "ям",
   strL "ах", strL "ях", strL "ом", strL "ем", strL "им", strL "ым",
   strL "а", strL "я", strL "о", strL "е", strL "и", strL "ы", strL "у",
   strL "ю"]

/-- `keywords.js` `KeywordMatcher.stem`: words shorter than 4 characters are
returned unchanged; otherwise the first table suffix that the word ends with
and whose removal leaves at least 2 characters is stripped. -/
def stem (word : List Char) : List Char :=
  if word.length < 4 then word
  else
    match suffixes.find?
        (fun s => s.isSuffixOf word && decide (2 ≤ word.length - s.length)) with
    | some s => word.take (word.length - s.length)
    | none => word

/-- `keywords.js` `KeywordMatcher.levenshteinDistance`: the dynamic-programming
matrix of the source tabulates exactly the textbook recurrence packaged by
Mathlib's `levenshtein` at unit costs (`Levenshtein.defaultCost` charges 1
for insert and delete and `if a = b then 0 else 1` for substitute, matching
the source's branch on `str1[i-1] === str2[j-1]`). -/
def levenshteinDistance (str1 str2 : List Char) : Nat :=
  levenshtein Levenshtein.defaultCost str1 str2

/-- The source's test `1 - distance / maxLen >= threshold`, with the
threshold given as the exact fraction `thrNum / thrDen`, expressed over the
integers by clearing the (positive) denominators:
`thrNum * maxLen ≤ thrDen * (maxLen - distance)`. -/
def similarityGE (distance maxLen thrNum thrDen : Nat) : Bool :=
  decide ((thrNum * maxLen : Int) ≤ thrDen * ((maxLen : Int) - distance))

/-- `keywords.js` `KeywordMatcher.fuzzyMatch`.  The similarity threshold is
the exact fraction `thrNum / thrDen`; the source's defaults 0.75 / 0.8 / 0.6
are passed explicitly at every call site as `3 4`, `4 5`, `3 5`. -/
def fuzzyMatch (word1 word2 : List Char) (thrNum thrDen : Nat) : Bool :=
  let w1 := normalizeText word1
  let w2 := normalizeText word2
  if w1 = w2 then true
  else if includesSub w1 w2 || includesSub w2 w1 then true
  else
    let stem1 := stem w1
    let stem2 := stem w2
    if stem1 = stem2 then true
    else if includesSub stem1 stem2 || includesSub stem2 stem1 then true
    else
      let maxLen := max w1.length w2.length
      if maxLen < 3 then decide (w1 = w2)
      else
        let distance := levenshteinDistance w1 w2
        similarityGE distance maxLen thrNum thrDen

/-- Helper for `getSynonyms`: add one whole equivalence class (key + all
listed synonyms, each in normalized and stemmed form) to the accumulator. -/
def addSynClass (acc : List (List Char)) (keyNorm keyStem : List Char)
    (values : List (List Char)) : List (List Char) :=
  values.foldl
    (fun a syn => setAdd (setAdd a (normalizeText syn)) (stem (normalizeText syn)))
    (setAdd (setAdd acc keyNorm) keyStem)

/-- `keywords.js` `KeywordMatcher.getSynonyms`: seed with the normalized and
stemmed input, then for every dictionary entry add the full class when the
input fuzzy-matches the key (or its stem), and again when it fuzzy-matches
any listed value (or its stem); default threshold 0.75. -/
def getSynonyms (word : List Char) : List (List Char) :=
  let normalized := normalizeText word
  let stemmed := stem normalized
  synonymsTable.foldl
    (fun acc entry =>
      let keyNorm := normalizeText entry.1
      let keyStem := stem keyNorm
      let acc1 :=
        if fuzzyMatch normalized keyNorm 3 4 || fuzzyMatch stemmed keyStem 3 4 then
          addSynClass acc keyNorm keyStem entry.2
        else acc
      entry.2.foldl
        (fun acc2 val =>
          let valNorm := normalizeText val
          let valStem := stem valNorm
          if fuzzyMatch normalized valNorm 3 4 || fuzzyMatch stemmed valStem 3 4 then
            addSynClass acc2 keyNorm keyStem entry.2
          else acc2)
        acc1)
    (setAdd (setAdd [] normalized) stemmed)

/-- `keywords.js` `KeywordMatcher.getNgrams`: normalize, split into words of
length > 1, then every contiguous run of `n` words joined by single spaces. -/
def getNgrams (text : List Char) (n : Nat) : List (List Char) :=
  let normalized := normalizeText text
  let words := (splitOnSpace normalized).filter (fun w => 1 < w.length)
  (List.range (words.length + 1 - n)).map
    (fun i => joinWith (strL " ") ((words.drop i).take n))

/-- The parsed keyword mode record returned by `parseKeywordMode`. -/
structure ParsedMode where
  isExact : Bool
  isAllRequired : Bool
  cleanKeyword : List Char
deriving DecidableEq

/-- JS `slice(1, -1)`: drop the first and last character (empty when the
input has fewer than two characters). -/
def sliceInner (l : List Char) : List Char := (l.drop 1).dropLast

/-- `keywords.js` `KeywordMatcher.parseKeywordMode`: `[…]` → all-required,
`"…"` / `«…»` / `'…'` → exact, otherwise the trimmed keyword in smart mode.
Only the first and last characters are inspected (so a single `"` counts as
both the opening and the closing quote). -/
def parseKeywordMode (keyword : List Char) : ParsedMode :=
  let trimmed := jsTrim keyword
  if trimmed.head? = some '[' && trimmed.getLast? = some ']' then
    ⟨false, true, sliceInner trimmed⟩
  else if (trimmed.head? = some '"' && trimmed.getLast? = some '"') ||
      (trimmed.head? = some '«' && trimmed.getLast? = some '»') ||
      (trimmed.head? = some (Char.ofNat 39) && trimmed.getLast? = some (Char.ofNat 39)) then
    ⟨true, false, sliceInner trimmed⟩
  else ⟨false, false, trimmed⟩

/-- Step 3 of `findWordInText`: scan the synonym candidates in order, skipping
those of length < 4 or stem length < 4, and return evidence for the first
whose stem occurs among the message-token stems. -/
def findSynLoop (textWords textStems : List (List Char)) :
    List (List Char) → Option (List Char)
  | [] => none
  | syn :: rest =>
    if syn.length < 4 then findSynLoop textWords textStems rest
    else
      let synStem := stem syn
      if synStem.length < 4 then findSynLoop textWords textStems rest
      else
        match textStems.findIdx? (· = synStem) with
        | some i => some ((textWords.getD i []) ++ strL " → " ++ syn)
        | none => findSynLoop textWords textStems rest

/-- Step 4 of `findWordInText`: first message token of length ≥ 6 that
fuzzy-matches the word at threshold 0.8. -/
def findFuzzyLoop (wordNorm : List Char) : List (List Char) → Option (List Char)
  | [] => none
  | tw :: rest =>
    if 6 ≤ tw.length && fuzzyMatch tw wordNorm 4 5 then
      some (tw ++ strL " ≈ " ++ wordNorm)
    else findFuzzyLoop wordNorm rest

/-- `keywords.js` `KeywordMatcher.findWordInText`: resolve one word against
the message tokens via, in order, exact token equality; exact stem equality
(stems of length ≥ 4 only); synonym-stem equality (words of length ≥ 4 only);
fuzzy matching (words of length ≥ 6 only).  Returns `(matchType, matchedWord)`
on success. -/
def findWordInText (word : List Char) (textWords textStems : List (List Char)) :
    Option (List Char × List Char) :=
  let wordNorm := normalizeText word
  let wordStem := stem wordNorm
  match textWords.findIdx? (· = wordNorm) with
  | some i => some (strL "exact", textWords.getD i [])
  | none =>
    let step2 :=
      if 4 ≤ wordStem.length then
        match textStems.findIdx? (· = wordStem) with
        | some i => some (strL "stem", textWords.getD i [])
        | none => none
      else none
    match step2 with
    | some r => some r
    | none =>
      let step3 :=
        if 4 ≤ wordNorm.length then
          match findSynLoop textWords textStems (getSynonyms wordNorm) with
          | some ev => some (strL "synonym", ev)
          | none => none
        else none
      match step3 with
      | some r => some r
      | none =>
        if 6 ≤ wordNorm.length then
          match findFuzzyLoop wordNorm textWords with
          | some ev => some (strL "fuzzy", ev)
          | none => none
        else none

/-- One entry of `matchDetails`: the raw keyword, the match type tag, and the
evidence text describing which token(s) triggered the match. -/
structure MatchDetail where
  keyword : List Char
  matchType : List Char
  matchedWord : List Char
deriving DecidableEq

/-- The result of `KeywordMatcher.match`. -/
structure MatchResult where
  matched : Bool
  matchedKeywords : List (List Char)
  matchDetails : List MatchDetail
deriving DecidableEq

/-- All-required resolution loop of `KeywordMatcher.match`: resolve every
part through `findWordInText`, stopping at the first failure; on success
return the evidence words and match types in part order. -/
def allRequiredLoop (textWords textStems : List (List Char)) :
    List (List Char) → Option (List (List Char) × List (List Char))
  | [] => some ([], [])
  | p :: ps =>
    match findWordInText p textWords textStems with
    | some (mt, mw) =>
      match allRequiredLoop textWords textStems ps with
      | some (ws, ts) => some (mw :: ws, mt :: ts)
      | none => none
    | none => none

/-- Smart strategy 2 of `KeywordMatcher.match`: first keyword part of length
≥ 4 whose stem (of length ≥ 4) equals a message-token stem exactly. -/
def smartStemLoop (textWords textStems : List (List Char)) :
    List (List Char) → Option (List Char)
  | [] => none
  | part :: rest =>
    if part.length < 4 then smartStemLoop textWords textStems rest
    else
      let partStem := stem part
      if partStem.length < 4 then smartStemLoop textWords textStems rest
      else
        match textStems.findIdx? (· = partStem) with
        | some i =>
          some ((textWords.getD i []) ++ strL " (stem: " ++ partStem ++ strL ")")
        | none => smartStemLoop textWords textStems rest

/-- Inner loop of smart strategy 3: scan one part's synonym candidates. -/
def smartSynInner (textWords textStems : List (List Char)) (part : List Char) :
    List (List Char) → Option (List Char)
  | [] => none
  | syn :: rest =>
    if syn.length < 4 then smartSynInner textWords textStems part rest
    else
      let synStem := stem syn
      if synStem.length < 4 then smartSynInner textWords textStems part rest
      else
        match textStems.findIdx? (· = synStem) with
        | some i =>
          some ((textWords.getD i []) ++ strL " → " ++ syn ++
            strL " (synonym of " ++ part ++ strL ")")
        | none => smartSynInner textWords textStems part rest

/-- Smart strategy 3 of `KeywordMatcher.match`: first part of length ≥ 4 one
of whose synonyms (length ≥ 4, stem length ≥ 4) has its stem among the
message-token stems. -/
def smartSynLoop (textWords textStems : List (List Char)) :
    List (List Char) → Option (List Char)
  | [] => none
  | part :: rest =>
    if part.length < 4 then smartSynLoop textWords textStems rest
    else
      match smartSynInner textWords textStems part (getSynonyms part) with
      | some ev => some ev
      | none => smartSynLoop textWords textStems rest

/-- Inner loop of smart strategy 4: scan the message tokens for one of
length ≥ 6 that fuzzy-matches the part at threshold 0.8. -/
def smartFuzzyInner (part : List Char) : List (List Char) → Option (List Char)
  | [] => none
  | tw :: rest =>
    if tw.length < 6 then smartFuzzyInner part rest
    else if fuzzyMatch tw part 4 5 then some (tw ++ strL " ≈ " ++ part)
    else smartFuzzyInner part rest

/-- Smart strategy 4 of `KeywordMatcher.match`: first part of length ≥ 6
fuzzy-matching some message token of length ≥ 6. -/
def smartFuzzyLoop (textWords : List (List Char)) :
    List (List Char) → Option (List Char)
  | [] => none
  | part :: rest =>
    if part.length < 6 then smartFuzzyLoop textWords rest
    else
      match smartFuzzyInner part textWords with
      | some ev => some ev
      | none => smartFuzzyLoop textWords rest

/-- Smart strategy 5 of `KeywordMatcher.match`: first message n-gram
fuzzy-matching the space-joined keyword parts at threshold 0.75. -/
def ngramLoop (keywordNgram : List Char) : List (List Char) → Option (List Char)
  | [] => none
  | ngram :: rest =>
    if fuzzyMatch ngram keywordNgram 3 4 then
      some (ngram ++ strL " ≈ " ++ keywordNgram)
    else ngramLoop keywordNgram rest

/-- The per-keyword body of the `for (const keyword of keywords)` loop of
`KeywordMatcher.match`: exact mode runs only the strict substring test;
all-required mode (with > 1 part) resolves every part through
`findWordInText`; otherwise the smart strategies run in order (phrase
containment, stem, synonym, fuzzy, n-gram), first success winning. -/
def matchKeyword (normalizedText : List Char)
    (textWords textStems : List (List Char)) (keyword : List Char) :
    Option MatchDetail :=
  let pm := parseKeywordMode keyword
  let keywordParts :=
    (splitOnSpace (normalizeText pm.cleanKeyword)).filter (fun w => 1 < w.length)
  if pm.isExact then
    if includesSub normalizedText (normalizeText pm.cleanKeyword) then
      some ⟨keyword, strL "exact (strict)", pm.cleanKeyword⟩
    else none
  else if pm.isAllRequired && 1 < keywordParts.length then
    match allRequiredLoop textWords textStems keywordParts with
    | some (foundWords, matchTypes) =>
      some ⟨keyword,
        strL "all-required (" ++ joinWith (strL "+") (dedupFirst matchTypes) ++
          strL ")",
        joinWith (strL " + ") foundWords⟩
    | none => none
  else
    if includesSub normalizedText (normalizeText pm.cleanKeyword) then
      some ⟨keyword, strL "exact", keyword⟩
    else
      match smartStemLoop textWords textStems keywordParts with
      | some ev => some ⟨keyword, strL "stem", ev⟩
      | none =>
        match smartSynLoop textWords textStems keywordParts with
        | some ev => some ⟨keyword, strL "synonym", ev⟩
        | none =>
          match smartFuzzyLoop textWords keywordParts with
          | some ev => some ⟨keyword, strL "fuzzy", ev⟩
          | none =>
            if 1 < keywordParts.length then
              let keywordNgram := joinWith (strL " ") keywordParts
              match ngramLoop keywordNgram
                  (getNgrams normalizedText keywordParts.length) with
              | some ev => some ⟨keyword, strL "ngram", ev⟩
              | none => none
            else none

/-- `keywords.js` `KeywordMatcher.match` (named `matchKeywords` here because
`match` is a Lean keyword): empty text or keyword list yields an unmatched
result; otherwise tokenize the message once and run the per-keyword cascade,
collecting matched keywords (deduplicated through a `Set`) and details. -/
def matchKeywords (text : List Char) (keywords : List (List Char)) :
    MatchResult :=
  if text.isEmpty || keywords.isEmpty then ⟨false, [], []⟩
  else
    let normalizedText := normalizeText text
    let textWords := (splitOnSpace normalizedText).filter
      (fun w => 1 < w.length && !(stopWords.contains w))
    let textStems := textWords.map stem
    let res := keywords.foldl
      (fun acc kw =>
        match matchKeyword normalizedText textWords textStems kw with
        | some d => (acc.1 ++ [kw], acc.2 ++ [d])
        | none => acc)
      ([], [])
    ⟨!res.1.isEmpty, dedupFirst res.1, res.2⟩

/-- One matched pattern entry of `KeywordMatcher.matchPatterns`. -/
structure PatternHit where
  pattern : List Char
  target : List Char
  found : List Char
deriving DecidableEq

/-- `keywords.js` `KeywordMatcher.matchPatterns`.  The regex scan over the
normalized text (the fixed `searchPatterns` list applied with `matchAll`) is
not modelled; its output is taken as the `captures` argument, one
`(match[0], match[1])` pair per regex hit in scan order.  Each capture of
length > 2 is fuzzy-compared (threshold 0.6) against every target pattern. -/
def matchPatterns (captures : List (List Char × List Char))
    (patterns : List (List Char)) : Bool × List PatternHit :=
  let matchedPatterns := captures.foldl
    (fun acc cap =>
      if 2 < cap.2.length then
        acc ++ patterns.filterMap
          (fun tp =>
            if fuzzyMatch cap.2 (normalizeText tp) 3 5 then
              some ⟨cap.1, tp, cap.2⟩
            else none)
      else acc)
    []
  (!matchedPatterns.isEmpty, matchedPatterns)

/-- The result of `KeywordMatcher.analyze`. -/
structure AnalyzeResult where
  matched : Bool
  matchedKeywords : List (List Char)
  matchDetails : List MatchDetail
  matchedPatterns : List PatternHit
  originalText : List Char
deriving DecidableEq

/-- `keywords.js` `KeywordMatcher.analyze`: combine the keyword verdict with
the pattern verdict.  `captures` stands for the regex scan output, as in
`matchPatterns`. -/
def analyze (captures : List (List Char × List Char)) (text : List Char)
    (keywords : List (List Char)) (patterns : List (List Char)) :
    AnalyzeResult :=
  let keywordResult := matchKeywords text keywords
  let patternResult := matchPatterns captures patterns
  ⟨keywordResult.matched || patternResult.1,
   keywordResult.matchedKeywords, keywordResult.matchDetails,
   patternResult.2, text⟩

/-- `keywords.js` `truncateText`: cut to `maxLength` characters, replacing
the tail with an ellipsis when the input is longer. -/
def truncateText (text : List Char) (maxLength : Nat) : List Char :=
  if text.length ≤ maxLength then text
  else text.take (maxLength - 3) ++ strL "..."

/-- One pass of `keywords.js` `escapeMarkdown`: JS `replace(/sp/g, '\\sp')`,
prefixing every occurrence of the character `sp` with a backslash. -/
def replChar (sp : Char) : List Char → List Char
  | [] => []
  | c :: rest =>
    if c = sp then '\\' :: c :: replChar sp rest else c :: replChar sp rest

/-- `keywords.js` `escapeMarkdown`: the five global replacements applied in
source order (`*`, `_`, `[`, `]`, backtick). -/
def escapeMarkdown (text : List Char) : List Char :=
  replChar '`' (replChar ']' (replChar '[' (replChar '_' (replChar '*' text))))

/-- JS `replace(pat, '')` with a string pattern: remove the first occurrence
of `pat` (here always the non-empty string `-100`). -/
def removeFirstOcc (pat : List Char) : List Char → List Char
  | [] => []
  | c :: rest =>
    if pat.isPrefixOf (c :: rest) then (c :: rest).drop pat.length
    else c :: removeFirstOcc pat rest

/-- Decimal digits of a numeric string. -/
def digitsToNat (s : List Char) : Nat :=
  s.foldl (fun a c => a * 10 + (c.toNat - 48)) 0

/-- JS `Math.abs` applied to a decimal-integer string (the only shapes the
monitor produces: a chat id such as `"123456"` or `"-123456"`), rendered
back through template interpolation.  The empty string coerces to `0`;
non-numeric strings yield `NaN`. -/
def jsAbsNumStr (s : List Char) : List Char :=
  if s.isEmpty then strL "0"
  else if s.all (fun c => '0' ≤ c && c ≤ '9') then (Nat.repr (digitsToNat s)).data
  else
    match s with
    | '-' :: rest =>
      if !rest.isEmpty && rest.all (fun c => '0' ≤ c && c ≤ '9') then
        (Nat.repr (digitsToNat rest)).data
      else strL "NaN"
    | _ => strL "NaN"

/-- The argument record of `keywords.js` `formatNotification`.  The caller
(the monitor) applies the JS `||` fallbacks for `firstName` and `chatTitle`
before the call, so those fields arrive populated. -/
structure NotificationData where
  firstName : List Char
  username : Option (List Char)
  userId : List Char
  messageText : List Char
  chatTitle : List Char
  chatId : List Char
  messageId : List Char
  matchedKeywords : List (List Char)
  matchDetails : List MatchDetail

/-- The `messageLink` constant of `formatNotification`: strip the first
`-100` for supergroup ids, otherwise link via the absolute numeric id. -/
def fmtMessageLink (chatId messageId : List Char) : List Char :=
  if (strL "-100").isPrefixOf chatId then
    strL "https://t.me/c/" ++ removeFirstOcc (strL "-100") chatId ++
      strL "/" ++ messageId
  else strL "https://t.me/c/" ++ jsAbsNumStr chatId ++ strL "/" ++ messageId

/-- The `usernameDisplay` constant of `formatNotification` (JS truthiness:
an absent or empty username displays as `нет`). -/
def fmtUsernameDisplay (username : Option (List Char)) : List Char :=
  match username with
  | some u => if u.isEmpty then strL "нет" else strL "@" ++ u
  | none => strL "нет"

/-- The `keywordsDisplay` constant of `formatNotification`: the rendered
match-details block (or the plain keyword list when no details exist). -/
def fmtKeywordsDisplay (matchedKeywords : List (List Char))
    (matchDetails : List MatchDetail) : List Char :=
  if 0 < matchedKeywords.length then
    if 0 < matchDetails.length then
      let detailsStr := joinWith (strL "\n")
        (matchDetails.map (fun d =>
          let detail := strL "\"" ++ d.keyword ++ strL "\" (" ++ d.matchType ++
            strL ")"
          if d.matchedWord.isEmpty then detail
          else detail ++ strL "\n   └ Найдено: \"" ++ d.matchedWord ++ strL "\""))
      strL "\n🔑 *Совпадения:*\n" ++ detailsStr
    else strL "\n🔑 *Ключевые слова:* " ++ joinWith (strL ", ") matchedKeywords
  else []

/-- `keywords.js` `formatNotification`: the outbound notification template.
`firstName`, the truncated message body, and `chatTitle` pass through
`escapeMarkdown`; the username display, user id, and match details are
interpolated directly. -/
def formatNotification (data : NotificationData) : List Char :=
  strL "🎯 *Найдено совпадение!*\n" ++
  fmtKeywordsDisplay data.matchedKeywords data.matchDetails ++
  strL "\n\n👤 *" ++ escapeMarkdown data.firstName ++
  strL "*\n├ Username: " ++ fmtUsernameDisplay data.username ++
  strL "\n├ User ID: `" ++ data.userId ++
  strL "`\n\n💬 *Сообщение:*\n\"" ++
  escapeMarkdown (truncateText data.messageText 500) ++
  strL "\"\n\n📍 *Чат:* [" ++ escapeMarkdown data.chatTitle ++
  strL "](" ++ fmtMessageLink data.chatId data.messageId ++ strL ")"

/-- `monitor.js` `createMessageHash`: digest of the lowercased, trimmed
message text.  The MD5 digest itself is not modelled; it is supplied as the
`md5` parameter (the monitor-level theorems hold for every digest function).
-/
def createMessageHash (md5 : List Char → List Char) (text : List Char) :
    List Char :=
  md5 (jsTrim (text.map jsToLower))

/-- The inbound message event of `TelegramMonitor.handleNewMessage`, with
the sender/chat lookups already folded in: `senderId` is the string
`"unknown"` when `getSender` failed or the id was absent, and
`senderFirstName` / `chatTitle` are `none` when the corresponding lookup
failed (the JS `||` fallbacks are applied where the source applies them). -/
structure MsgEvent where
  text : List Char
  chatId : List Char
  messageId : List Char
  senderId : List Char
  senderFirstName : Option (List Char)
  senderUsername : Option (List Char)
  chatTitle : Option (List Char)

/-- The fresh `database.users.getById` row, reduced to the field the
handler uses for delivery. -/
structure UserRec where
  botChatId : Option (List Char)

/-- The fresh `database.monitors.getByUserId` row, reduced to the parsed
keyword list the handler feeds to the matcher. -/
structure MonitorSettings where
  keywords : List (List Char)

/-- The shared store state read and written by `handleNewMessage`:
the three stat counters, the `sent_notifications` triples, the per-user
`message_hashes` pairs, and the `blocked_authors` pairs. -/
structure MonState where
  messagesProcessed : Nat
  matchesFound : Nat
  notificationsSent : Nat
  sentNotifs : List (List Char × List Char × List Char)
  msgHashes : List (List Char × List Char)
  blockedAuthors : List (List Char × List Char)
deriving DecidableEq

/-- SQL `INSERT ... ON CONFLICT DO NOTHING` over a keyed store modelled as a
duplicate-free list. -/
def dbInsert {α : Type} [DecidableEq α] (l : List α) (x : α) : List α :=
  if x ∈ l then l else l ++ [x]

/-- Outcome of the first `bot.sendMessage` call: success, a
`BUTTON_USER_INVALID` / `BUTTON_URL_INVALID` failure (which triggers the
button-stripped retry), or any other failure. -/
inductive SendOutcome
  | ok
  | buttonErr
  | otherErr
deriving DecidableEq

/-- Outcome of the button-stripped retry `bot.sendMessage` call. -/
inductive RetryOutcome
  | ok
  | err
deriving DecidableEq

/-- Observable effects of one `handleNewMessage` run: how many times
`keywordMatcher.analyze` was invoked, and the `bot.sendMessage` attempts
(recipient chat id and notification text, in call order). -/
structure HandleEffects where
  analyzeCalls : Nat
  sendAttempts : List (List Char × List Char)
deriving DecidableEq

/-- `monitor.js` `TelegramMonitor.handleNewMessage`, as a state transformer.
`md5` abstracts the digest, `captures` the regex scan of `matchPatterns`
(unused: the handler passes no patterns), `userRow` / `settingsRow` the
fresh database lookups, and `primary` / `retry` the delivery outcomes.
The inline-keyboard construction is pure and reaches no store, so it is not
modelled; its only observable consequence — the button-stripped retry after
a button-related failure — is represented by the `retry` outcome. -/
def handleNewMessage (md5 : List Char → List Char)
    (captures : List (List Char × List Char)) (userId : List Char)
    (ev : MsgEvent) (userRow : Option UserRec)
    (settingsRow : Option MonitorSettings) (primary : SendOutcome)
    (retry : RetryOutcome) (st : MonState) : MonState × HandleEffects :=
  let st := { st with messagesProcessed := st.messagesProcessed + 1 }
  if ev.text.isEmpty then (st, ⟨0, []⟩)
  else
    match userRow with
    | none => (st, ⟨0, []⟩)
    | some user =>
      match settingsRow with
      | none => (st, ⟨0, []⟩)
      | some settings =>
        let matchResult := analyze captures ev.text settings.keywords []
        if !matchResult.matched then (st, ⟨1, []⟩)
        else
          let st := { st with matchesFound := st.matchesFound + 1 }
          if (userId, ev.chatId, ev.messageId) ∈ st.sentNotifs then (st, ⟨1, []⟩)
          else if ev.senderId ≠ strL "unknown" ∧
              (userId, ev.senderId) ∈ st.blockedAuthors then (st, ⟨1, []⟩)
          else
            let messageHash := createMessageHash md5 ev.text
            if (userId, messageHash) ∈ st.msgHashes then (st, ⟨1, []⟩)
            else
              let notification := formatNotification
                { firstName :=
                    match ev.senderFirstName with
                    | some f => if f.isEmpty then strL "Неизвестно" else f
                    | none => strL "Неизвестно",
                  username := ev.senderUsername,
                  userId := ev.senderId,
                  messageText := ev.text,
                  chatTitle :=
                    match ev.chatTitle with
                    | some t => if t.isEmpty then strL "Неизвестный чат" else t
                    | none => strL "Неизвестный чат",
                  chatId := ev.chatId,
                  messageId := ev.messageId,
                  matchedKeywords := matchResult.matchedKeywords,
                  matchDetails := matchResult.matchDetails }
              match user.botChatId with
              | none => (st, ⟨1, []⟩)
              | some bcid =>
                if bcid.isEmpty then (st, ⟨1, []⟩)
                else
                  match primary with
                  | .ok =>
                    ({ st with
                        sentNotifs :=
                          dbInsert st.sentNotifs (userId, ev.chatId, ev.messageId),
                        msgHashes := dbInsert st.msgHashes (userId, messageHash),
                        notificationsSent := st.notificationsSent + 1 },
                     ⟨1, [(bcid, notification)]⟩)
                  | .otherErr => (st, ⟨1, [(bcid, notification)]⟩)
                  | .buttonErr =>
                    match retry with
                    | .ok =>
                      ({ st with
                          sentNotifs :=
                            dbInsert st.sentNotifs (userId, ev.chatId, ev.messageId),
                          msgHashes := dbInsert st.msgHashes (userId, messageHash),
                          notificationsSent := st.notificationsSent + 1 },
                       ⟨1, [(bcid, notification), (bcid, notification)]⟩)
                    | .err => (st, ⟨1, [(bcid, notification), (bcid, notification)]⟩)

/-- Following claim C4's words (not the source): word-level resolution
consisting of exact token equality, then — if the word's stem has length
≥ 4 — exact stem equality, then — if the word has length ≥ 4 — equality of
some synonym's stem with a message-token stem.  The source's
`findWordInText` additionally filters synonyms by length and falls back to
fuzzy matching; this definition exists to compare the claim against it. -/
def specWordResolution (word : List Char)
    (textWords textStems : List (List Char)) : Bool :=
  let wordNorm := normalizeText word
  let wordStem := stem wordNorm
  textWords.contains wordNorm ||
  (decide (4 ≤ wordStem.length) && textStems.contains wordStem) ||
  (decide (4 ≤ wordNorm.length) &&
    (getSynonyms wordNorm).any (fun syn => textStems.contains (stem syn)))

/-- Following claim C6's words (not the source): one character of a
user-controlled field as the claim requires it to appear in the composed
notification — each occurrence of `*`, `_`, `[`, `]`, backtick carries a
preceding backslash. -/
def escOne (c : Char) : List Char :=
  if c = '*' || c = '_' || c = '[' || c = ']' || c = '`' then ['\\', c]
  else [c]

/-- Following claim C6's words: every occurrence of `_` in the string is
preceded by a backslash.  The fixed template of `formatNotification`
contains no underscore, so the claim implies this property of the entire
composed string. -/
def underscoresEscaped (l : List Char) : Bool :=
  (List.range l.length).all (fun i =>
    !(l.getD i ' ' = '_') || (decide (1 ≤ i) && l.getD (i - 1) ' ' = '\\'))

/-- Whether any delivery attempt of `handleNewMessage` succeeded: the
primary send, or — after a button-related failure — the stripped retry. -/
def deliverySucceeded (primary : SendOutcome) (retry : RetryOutcome) : Bool :=
  match primary with
  | .ok => true
  | .buttonErr => match retry with | .ok => true | .err => false
  | .otherErr => false

/-! ## Helper lemmas -/

set_option maxRecDepth 100000
set_option maxHeartbeats 1000000

/-- The empty needle is a substring of every haystack (JS
`includes('') === true`). -/
theorem includesSub_nil (hay : List Char) : includesSub hay [] = true := by
  simp only [includesSub, List.any_eq_true]
  exact ⟨0, by simp, by simp [List.isPrefixOf]⟩

/-- `dedupFirstAux` produces a duplicate-free list avoiding `seen`. -/
theorem dedupFirstAux_spec {α : Type} [DecidableEq α] (l seen : List α) :
    (dedupFirstAux seen l).Nodup ∧ ∀ x ∈ dedupFirstAux seen l, x ∉ seen := by
  induction l generalizing seen with
  | nil => simp [dedupFirstAux]
  | cons a l ih =>
    by_cases h : a ∈ seen
    · simpa [dedupFirstAux, h] using ih seen
    · refine ⟨?_, ?_⟩
      · simp only [dedupFirstAux, if_neg h, List.nodup_cons]
        exact ⟨fun hmem => (ih (a :: seen)).2 a hmem (by simp),
          (ih (a :: seen)).1⟩
      · intro x hx hseen
        simp only [dedupFirstAux, if_neg h, List.mem_cons] at hx
        rcases hx with rfl | hx
        · exact h hseen
        · exact (ih (a :: seen)).2 x hx (by simp [hseen])

/-- Membership in `dedupFirstAux` is membership in the list outside `seen`. -/
theorem mem_dedupFirstAux {α : Type} [DecidableEq α] (l seen : List α)
    (x : α) : x ∈ dedupFirstAux seen l ↔ x ∈ l ∧ x ∉ seen := by
  induction l generalizing seen with
  | nil => simp [dedupFirstAux]
  | cons a l ih =>
    by_cases h : a ∈ seen
    · rw [dedupFirstAux, if_pos h, ih]
      constructor
      · exact fun ⟨h1, h2⟩ => ⟨List.mem_cons_of_mem _ h1, h2⟩
      · rintro ⟨h1, h2⟩
        rcases List.mem_cons.1 h1 with rfl | h1
        · exact absurd h h2
        · exact ⟨h1, h2⟩
    · rw [dedupFirstAux, if_neg h]
      simp only [List.mem_cons, ih, List.mem_cons]
      constructor
      · rintro (rfl | ⟨h1, h2⟩)
        · exact ⟨Or.inl rfl, h⟩
        · exact ⟨Or.inr h1, fun hs => h2 (by simp [hs])⟩
      · rintro ⟨rfl | h1, h2⟩
        · exact Or.inl rfl
        · by_cases hxa : x = a
          · exact Or.inl hxa
          · exact Or.inr ⟨h1, fun hs => by
              rcases hs with h' | h'
              · exact hxa h'
              · exact h2 h'⟩

/-- Characters of valid scalar value below the surrogate range round-trip
through `Char.ofNat`. -/
theorem toNat_ofNat_lt (n : Nat) (h : n < 0xD800) : (Char.ofNat n).toNat = n := by
  unfold Char.ofNat
  rw [dif_pos (Or.inl h)]
  rfl

/-- `Char.toNat` is injective. -/
theorem char_toNat_inj {a b : Char} (h : a.toNat = b.toNat) : a = b :=
  Char.ext (UInt32.ext h)

/-- The restricted JS lowercase map is idempotent. -/
theorem jsToLower_idem (c : Char) : jsToLower (jsToLower c) = jsToLower c := by
  by_cases h1 : ('A' ≤ c && c ≤ 'Z') = true
  · have h1' : 65 ≤ c.toNat ∧ c.toNat ≤ 90 := by
      simp only [Bool.and_eq_true, decide_eq_true_eq] at h1
      exact ⟨h1.1, h1.2⟩
    have hv : (Char.ofNat (c.toNat + 32)).toNat = c.toNat + 32 :=
      toNat_ofNat_lt _ (by omega)
    have e1 : jsToLower c = Char.ofNat (c.toNat + 32) := by
      unfold jsToLower; rw [if_pos h1]
    rw [e1]
    unfold jsToLower
    rw [if_neg (by
        simp only [Bool.and_eq_true, decide_eq_true_eq, not_and]
        intro _ hle
        have h90 : (Char.ofNat (c.toNat + 32)).toNat ≤ 90 := hle
        omega),
      if_neg (by
        simp only [Bool.and_eq_true, decide_eq_true_eq, not_and]
        intro hge _
        have h1040 : 1040 ≤ (Char.ofNat (c.toNat + 32)).toNat := hge
        omega),
      if_neg (by
        intro h'
        have h1025 : (Char.ofNat (c.toNat + 32)).toNat = 1025 :=
          congrArg Char.toNat h'
        omega)]
  · by_cases h2 : ('А' ≤ c && c ≤ 'Я') = true
    · have h2' : 1040 ≤ c.toNat ∧ c.toNat ≤ 1071 := by
        simp only [Bool.and_eq_true, decide_eq_true_eq] at h2
        exact ⟨h2.1, h2.2⟩
      have hv : (Char.ofNat (c.toNat + 32)).toNat = c.toNat + 32 :=
        toNat_ofNat_lt _ (by omega)
      have e1 : jsToLower c = Char.ofNat (c.toNat + 32) := by
        unfold jsToLower; rw [if_neg h1, if_pos h2]
      rw [e1]
      unfold jsToLower
      rw [if_neg (by
          simp only [Bool.and_eq_true, decide_eq_true_eq, not_and]
          intro _ hle
          have h90 : (Char.ofNat (c.toNat + 32)).toNat ≤ 90 := hle
          omega),
        if_neg (by
          simp only [Bool.and_eq_true, decide_eq_true_eq, not_and]
          intro _ hle
          have h1071 : (Char.ofNat (c.toNat + 32)).toNat ≤ 1071 := hle
          omega),
        if_neg (by
          intro h'
          have h1025 : (Char.ofNat (c.toNat + 32)).toNat = 1025 :=
            congrArg Char.toNat h'
          omega)]
    · by_cases h3 : c = 'Ё'
      · have e1 : jsToLower c = 'ё' := by
          unfold jsToLower; rw [if_neg h1, if_neg h2, if_pos h3]
        rw [e1]
        decide
      · have e1 : jsToLower c = c := by
          unfold jsToLower; rw [if_neg h1, if_neg h2, if_neg h3]
        rw [e1, e1]

/-- Every character produced by `normChar` is a fixed point of all three
per-character passes. -/
theorem normChar_fixed (c : Char) :
    jsToLower (normChar c) = normChar c ∧
    (if normChar c = 'ё' then 'е' else normChar c) = normChar c ∧
    (if isKept (normChar c) then normChar c else ' ') = normChar c := by
  unfold normChar
  by_cases hk : isKept (if jsToLower c = 'ё' then 'е' else jsToLower c) = true
  · rw [if_pos hk]
    by_cases hyo : jsToLower c = 'ё'
    · rw [if_pos hyo] at hk ⊢
      refine ⟨by decide, by decide, ?_⟩
      rw [if_pos hk]
    · rw [if_neg hyo] at hk ⊢
      exact ⟨jsToLower_idem c, by rw [if_neg hyo], by rw [if_pos hk]⟩
  · rw [if_neg hk]
    exact ⟨by decide, by decide, by decide⟩

/-- The normalizer's map stack equals mapping `normChar`. -/
theorem maps_eq_normChar (l : List Char) :
    ((l.map jsToLower).map (fun c => if c = 'ё' then 'е' else c)).map
      (fun c => if isKept c then c else ' ') = l.map normChar := by
  induction l with
  | nil => rfl
  | cons c cs ih => simp [normChar, ih]

/-- Characters surviving `collapseWsAux` are either the inserted space or
non-whitespace characters of the input. -/
theorem mem_collapseWsAux (b : Bool) (l : List Char) (c : Char)
    (h : c ∈ collapseWsAux b l) : c = ' ' ∨ (c ∈ l ∧ isJsWs c = false) := by
  induction l generalizing b with
  | nil => simp [collapseWsAux] at h
  | cons a l ih =>
    by_cases ha : isJsWs a = true
    · cases b with
      | true =>
        simp only [collapseWsAux, ha, if_pos] at h
        rcases ih true h with h' | h'
        · exact Or.inl h'
        · exact Or.inr ⟨List.mem_cons_of_mem _ h'.1, h'.2⟩
      | false =>
        simp only [collapseWsAux, ha, if_pos] at h
        rcases List.mem_cons.1 h with rfl | h'
        · exact Or.inl rfl
        · rcases ih true h' with h'' | h''
          · exact Or.inl h''
          · exact Or.inr ⟨List.mem_cons_of_mem _ h''.1, h''.2⟩
    · have ha' : isJsWs a = false := by simpa using ha
      simp only [collapseWsAux, ha', Bool.false_eq_true, if_false] at h
      rcases List.mem_cons.1 h with rfl | h'
      · exact Or.inr ⟨List.mem_cons_self _ _, ha'⟩
      · rcases ih false h' with h'' | h''
        · exact Or.inl h''
        · exact Or.inr ⟨List.mem_cons_of_mem _ h''.1, h''.2⟩

/-- No two adjacent whitespace characters in `collapseWsAux` output; with
the flag set, the output also starts with a non-whitespace character. -/
theorem chain_collapseWsAux (l : List Char) :
    ∀ b, List.Chain' (fun x y => ¬(isJsWs x = true ∧ isJsWs y = true))
        (collapseWsAux b l) ∧
      (∀ c, (collapseWsAux true l).head? = some c → isJsWs c = false) := by
  induction l with
  | nil => intro b; simp [collapseWsAux]
  | cons a l ih =>
    intro b
    by_cases ha : isJsWs a = true
    · constructor
      · cases b with
        | true =>
          simp only [collapseWsAux, ha, if_pos, if_true]
          exact (ih true).1
        | false =>
          simp only [collapseWsAux, ha, if_pos, if_true, Bool.false_eq_true,
            if_false]
          rw [List.chain'_cons']
          refine ⟨fun d hd => ?_, (ih true).1⟩
          have := (ih true).2 d hd
          simp [this]
      · intro c hc
        simp only [collapseWsAux, ha, if_pos, if_true] at hc
        exact (ih true).2 c hc
    · have ha' : isJsWs a = false := by simpa using ha
      constructor
      · simp only [collapseWsAux, ha', Bool.false_eq_true, if_false]
        rw [List.chain'_cons']
        exact ⟨fun d _ => by simp [ha'], (ih false).1⟩
      · intro c hc
        simp only [collapseWsAux, ha', Bool.false_eq_true, if_false,
          List.head?_cons, Option.some.injEq] at hc
        rw [← hc]
        exact ha'

/-- `collapseWsAux` is the identity on lists whose whitespace is already
normalized (every whitespace character is a space, no two adjacent); with
the flag set this additionally requires a non-whitespace head. -/
theorem collapseWsAux_id (l : List Char)
    (hsp : ∀ c ∈ l, isJsWs c = true → c = ' ')
    (hch : List.Chain' (fun x y => ¬(isJsWs x = true ∧ isJsWs y = true)) l) :
    collapseWsAux false l = l ∧
      ((∀ c, l.head? = some c → isJsWs c = false) → collapseWsAux true l = l) := by
  induction l with
  | nil => simp [collapseWsAux]
  | cons a l ih =>
    have hsp' : ∀ c ∈ l, isJsWs c = true → c = ' ' :=
      fun c hc => hsp c (List.mem_cons_of_mem _ hc)
    have hch' : List.Chain' (fun x y => ¬(isJsWs x = true ∧ isJsWs y = true)) l :=
      (List.chain'_cons'.1 hch).2
    have ihl := ih hsp' hch'
    by_cases ha : isJsWs a = true
    · have hasp : a = ' ' := hsp a (List.mem_cons_self _ _) ha
      have hhead : ∀ c, l.head? = some c → isJsWs c = false := by
        intro c hc
        have := (List.chain'_cons'.1 hch).1 c hc
        by_cases h : isJsWs c = true
        · exact absurd ⟨ha, h⟩ this
        · simpa using h
      constructor
      · simp only [collapseWsAux, ha, if_pos, Bool.false_eq_true, if_false]
        rw [ihl.2 hhead, hasp]
      · intro hcontr
        have := hcontr a (by simp)
        rw [ha] at this
        exact absurd this (by simp)
    · have ha' : isJsWs a = false := by simpa using ha
      constructor
      · simp only [collapseWsAux, ha', Bool.false_eq_true, if_false]
        rw [ihl.1]
      · intro _
        simp only [collapseWsAux, ha', Bool.false_eq_true, if_false]
        rw [ihl.1]

/-- The head of a `dropWhile` result never satisfies the predicate. -/
theorem dropWhile_head_false (p : Char → Bool) (l : List Char) (c : Char)
    (h : (l.dropWhile p).head? = some c) : p c = false := by
  induction l with
  | nil => simp [List.dropWhile] at h
  | cons a l ih =>
    by_cases hp : p a = true
    · rw [List.dropWhile_cons_of_pos hp] at h
      exact ih h
    · rw [List.dropWhile_cons_of_neg hp] at h
      simp only [List.head?_cons, Option.some.injEq] at h
      rw [← h]
      simpa using hp

/-- `dropWhile` preserves a last element that fails the predicate. -/
theorem dropWhile_getLast (p : Char → Bool) (l : List Char) (c : Char)
    (h : l.getLast? = some c) (hc : p c = false) :
    (l.dropWhile p).getLast? = some c := by
  induction l with
  | nil => simp at h
  | cons a l ih =>
    cases l with
    | nil =>
      simp only [List.getLast?_singleton, Option.some.injEq] at h
      subst h
      rw [List.dropWhile_cons_of_neg (by simp [hc])]
      simp
    | cons b m =>
      have h' : (b :: m).getLast? = some c := by
        rwa [List.getLast?_cons_cons] at h
      by_cases hp : p a = true
      · rw [List.dropWhile_cons_of_pos hp]
        exact ih h'
      · rw [List.dropWhile_cons_of_neg hp]
        rw [List.getLast?_cons_cons]
        exact h'

/-- `dropWhile` is the identity when the head fails the predicate. -/
theorem dropWhile_id (p : Char → Bool) (l : List Char)
    (h : ∀ c, l.head? = some c → p c = false) : l.dropWhile p = l := by
  cases l with
  | nil => rfl
  | cons a l => exact List.dropWhile_cons_of_neg (by simp [h a rfl])

/-- Characters of `jsTrim` output come from the input. -/
theorem mem_jsTrim (l : List Char) (c : Char) (h : c ∈ jsTrim l) : c ∈ l := by
  unfold jsTrim at h
  rw [List.mem_reverse] at h
  have h1 := (List.dropWhile_suffix (l := (l.dropWhile isJsWs).reverse)
    isJsWs).mem h
  rw [List.mem_reverse] at h1
  exact (List.dropWhile_suffix isJsWs).mem h1

/-- `jsTrim` preserves the no-adjacent-whitespace chain. -/
theorem chain_jsTrim (l : List Char)
    (h : List.Chain' (fun x y => ¬(isJsWs x = true ∧ isJsWs y = true)) l) :
    List.Chain' (fun x y => ¬(isJsWs x = true ∧ isJsWs y = true)) (jsTrim l) := by
  have swap : ∀ (m : List Char),
      List.Chain' (fun x y => ¬(isJsWs x = true ∧ isJsWs y = true)) m →
      List.Chain' (fun x y => ¬(isJsWs x = true ∧ isJsWs y = true)) m.reverse := by
    intro m hm
    rw [List.chain'_reverse]
    exact hm.imp (fun a b hab ⟨u, v⟩ => hab ⟨v, u⟩)
  unfold jsTrim
  exact swap _ ((swap _ (h.suffix (List.dropWhile_suffix isJsWs))).suffix
    (List.dropWhile_suffix isJsWs))

/-- The first and last characters of `jsTrim` output are not whitespace. -/
theorem jsTrim_ends (l : List Char) :
    (∀ c, (jsTrim l).head? = some c → isJsWs c = false) ∧
    (∀ c, (jsTrim l).getLast? = some c → isJsWs c = false) := by
  constructor
  · intro c hc
    unfold jsTrim at hc
    rw [List.head?_reverse] at hc
    cases hX : (l.dropWhile isJsWs).head? with
    | none =>
      have : l.dropWhile isJsWs = [] := by
        cases hempty : l.dropWhile isJsWs with
        | nil => rfl
        | cons a m => rw [hempty] at hX; simp at hX
      rw [this] at hc
      simp at hc
    | some c0 =>
      have hc0 : isJsWs c0 = false := dropWhile_head_false _ _ _ hX
      have hrev : (l.dropWhile isJsWs).reverse.getLast? = some c0 := by
        rw [List.getLast?_reverse]
        exact hX
      have := dropWhile_getLast isJsWs _ c0 hrev hc0
      rw [this] at hc
      cases hc
      exact hc0
  · intro c hc
    unfold jsTrim at hc
    rw [List.getLast?_reverse] at hc
    exact dropWhile_head_false _ _ _ hc

/-- `jsTrim` is the identity when neither end is whitespace. -/
theorem jsTrim_id (l : List Char)
    (hh : ∀ c, l.head? = some c → isJsWs c = false)
    (hl : ∀ c, l.getLast? = some c → isJsWs c = false) : jsTrim l = l := by
  unfold jsTrim
  rw [dropWhile_id _ _ hh]
  rw [dropWhile_id _ _ (by
    intro c hc
    rw [List.head?_reverse] at hc
    exact hl c hc)]
  exact List.reverse_reverse l

/-- A character fixed by all three per-character passes is fixed by
`normChar`. -/
theorem normChar_id_of_fixed (c : Char) (h1 : jsToLower c = c)
    (h2 : (if c = 'ё' then 'е' else c) = c)
    (h3 : (if isKept c then c else ' ') = c) : normChar c = c := by
  unfold normChar
  rw [h1, h2, h3]

/-- C8: text normalization is idempotent: for every input string `x`,
`normalizeText (normalizeText x)` equals `normalizeText x`. -/
theorem normalizeText_idem (x : List Char) :
    normalizeText (normalizeText x) = normalizeText x := by
  have hrw : normalizeText x = jsTrim (collapseWs (x.map normChar)) := by
    unfold normalizeText
    rw [maps_eq_normChar]
  -- facts about the characters of the normalized text
  have hmem : ∀ c ∈ normalizeText x,
      jsToLower c = c ∧ (if c = 'ё' then 'е' else c) = c ∧
      (if isKept c then c else ' ') = c ∧
      (isJsWs c = true → c = ' ') := by
    intro c hc
    rw [hrw] at hc
    have hz := mem_jsTrim _ _ hc
    rcases mem_collapseWsAux _ _ _ hz with rfl | ⟨hmem', hws⟩
    · exact ⟨by decide, by decide, by decide, fun _ => rfl⟩
    · rcases List.mem_map.1 hmem' with ⟨c0, _, rfl⟩
      obtain ⟨f1, f2, f3⟩ := normChar_fixed c0
      exact ⟨f1, f2, f3, fun hws' => by rw [hws'] at hws; cases hws⟩
  have hchain : List.Chain' (fun x y => ¬(isJsWs x = true ∧ isJsWs y = true))
      (normalizeText x) := by
    rw [hrw]
    exact chain_jsTrim _ ((chain_collapseWsAux _ false).1)
  have hends := jsTrim_ends (collapseWs (x.map normChar))
  rw [← hrw] at hends
  -- second pass is the identity
  conv_lhs => rw [show normalizeText (normalizeText x) =
    jsTrim (collapseWs ((normalizeText x).map normChar)) by
      unfold normalizeText; rw [maps_eq_normChar]]
  rw [show (normalizeText x).map normChar = normalizeText x from
    (List.map_congr_left (fun c hc =>
      normChar_id_of_fixed c (hmem c hc).1 (hmem c hc).2.1
        (hmem c hc).2.2.1)).trans ((normalizeText x).map_id)]
  rw [show collapseWs (normalizeText x) = normalizeText x from
    (collapseWsAux_id _ (fun c hc => (hmem c hc).2.2.2) hchain).1]
  exact jsTrim_id _ hends.1 hends.2

/-! ## Claim theorems -/

/-- C7: for every word, the stemmer returns words of length below 4
unchanged; otherwise, scanning the suffix table (which is ordered
longest-suffix-first), it removes the first suffix that matches with at
least 2 characters remaining, and returns the word unchanged when no
suffix matches. -/
theorem stem_spec (w : List Char) :
    (w.length < 4 → stem w = w) ∧
    (4 ≤ w.length →
      ((∀ s ∈ suffixes, ¬(s <:+ w ∧ 2 ≤ w.length - s.length)) → stem w = w) ∧
      (∀ pre s post, suffixes = pre ++ s :: post →
        (∀ t ∈ pre, ¬(t <:+ w ∧ 2 ≤ w.length - t.length)) →
        s <:+ w → 2 ≤ w.length - s.length →
        stem w = w.take (w.length - s.length))) ∧
    List.Pairwise (fun a b : List Char => b.length ≤ a.length) suffixes := by
  refine ⟨fun h => by simp [stem, h], fun h4 => ⟨?_, ?_⟩, by decide⟩
  · intro hnone
    have hfind : suffixes.find?
        (fun s => s.isSuffixOf w && decide (2 ≤ w.length - s.length)) = none := by
      apply List.find?_eq_none.2
      intro s hs
      simp only [Bool.and_eq_true, decide_eq_true_eq,
        List.isSuffixOf_iff_suffix, not_and]
      exact fun h1 h2 => hnone s hs ⟨h1, h2⟩
    simp [stem, Nat.not_lt.2 h4, hfind]
  · intro pre s post heq hpre hsuf hlen
    have hfind : suffixes.find?
        (fun t => t.isSuffixOf w && decide (2 ≤ w.length - t.length)) = some s := by
      rw [heq, List.find?_append]
      have hn : pre.find?
          (fun t => t.isSuffixOf w && decide (2 ≤ w.length - t.length)) = none := by
        apply List.find?_eq_none.2
        intro t ht
        simp only [Bool.and_eq_true, decide_eq_true_eq,
          List.isSuffixOf_iff_suffix, not_and]
        exact fun h1 h2 => hpre t ht ⟨h1, h2⟩
      rw [hn]
      simp only [Option.none_or]
      exact List.find?_cons_of_pos _ (by
        simp only [Bool.and_eq_true, decide_eq_true_eq,
          List.isSuffixOf_iff_suffix]
        exact ⟨hsuf, hlen⟩)
    simp [stem, Nat.not_lt.2 h4, hfind]

/-- Witness for C7: `тестами` loses the longest-first suffix `ами`
(leaving `тест`), and `тест` (which ends in no table suffix) is unchanged. -/
theorem stem_spec_witness :
    stem (strL "тестами") = strL "тест" ∧ stem (strL "тест") = strL "тест" := by
  constructor
  · have h := ((stem_spec (strL "тестами")).2.1 (by decide)).2
      [] (strL "ами") (suffixes.drop 1) (by decide) (by simp) (by decide)
      (by decide)
    exact h.trans (by decide)
  · exact ((stem_spec (strL "тест")).2.1 (by decide)).1 (by decide)

/-- C5: a single match evaluation never reports a duplicate keyword: the
`matchedKeywords` of `KeywordMatcher.match` (and hence of `analyze`) is
duplicate-free for every message text and keyword list. -/
theorem matchedKeywords_nodup (captures : List (List Char × List Char))
    (text : List Char) (keywords patterns : List (List Char)) :
    ((analyze captures text keywords patterns).matchedKeywords).Nodup ∧
    ((matchKeywords text keywords).matchedKeywords).Nodup := by
  have key : ((matchKeywords text keywords).matchedKeywords).Nodup := by
    by_cases hg : text.isEmpty || keywords.isEmpty
    · simp [matchKeywords, hg]
    · simp only [matchKeywords, hg, Bool.false_eq_true, if_false, dedupFirst]
      exact (dedupFirstAux_spec _ _).1
  exact ⟨by simpa [analyze] using key, key⟩

/-- Levenshtein distance at the source's unit costs is symmetric. -/
theorem levenshteinDistance_comm (xs ys : List Char) :
    levenshteinDistance xs ys = levenshteinDistance ys xs := by
  unfold levenshteinDistance
  induction xs generalizing ys with
  | nil =>
    induction ys with
    | nil => rfl
    | cons y ys ih =>
      rw [levenshtein_nil_cons, levenshtein_cons_nil, ih]
      simp [Levenshtein.defaultCost]
  | cons x xs ihx =>
    induction ys with
    | nil =>
      rw [levenshtein_cons_nil, levenshtein_nil_cons, ihx []]
      simp [Levenshtein.defaultCost]
    | cons y ys ihy =>
      rw [levenshtein_cons_cons, levenshtein_cons_cons, ihx (y :: ys), ihx ys,
        ihy]
      have hsub : Levenshtein.defaultCost.substitute x y =
          Levenshtein.defaultCost.substitute y x := by
        simp only [Levenshtein.defaultCost]
        by_cases h : x = y <;> simp [h, Ne.symm]
      rw [hsub]
      simp only [Levenshtein.defaultCost]
      exact min_left_comm _ _ _

/-- C9: fuzzy word matching is symmetric — at every threshold,
`fuzzyMatch a b` equals `fuzzyMatch b a`. -/
theorem fuzzyMatch_comm (a b : List Char) (thrNum thrDen : Nat) :
    fuzzyMatch a b thrNum thrDen = fuzzyMatch b a thrNum thrDen := by
  simp only [fuzzyMatch]
  by_cases h1 : normalizeText a = normalizeText b
  · simp [h1]
  · rw [if_neg h1, if_neg (Ne.symm h1)]
    rw [Bool.or_comm (includesSub (normalizeText a) (normalizeText b))]
    by_cases h2 : (includesSub (normalizeText b) (normalizeText a) ||
        includesSub (normalizeText a) (normalizeText b)) = true
    · simp [h2]
    · rw [if_neg h2, if_neg h2]
      by_cases h3 : stem (normalizeText a) = stem (normalizeText b)
      · simp [h3]
      · rw [if_neg h3, if_neg (Ne.symm h3)]
        rw [Bool.or_comm (includesSub (stem (normalizeText a))
          (stem (normalizeText b)))]
        by_cases h4 : (includesSub (stem (normalizeText b))
            (stem (normalizeText a)) ||
            includesSub (stem (normalizeText a)) (stem (normalizeText b))) = true
        · simp [h4]
        · rw [if_neg h4, if_neg h4, Nat.max_comm,
            levenshteinDistance_comm]
          by_cases h5 : max (normalizeText b).length (normalizeText a).length < 3
          · rw [if_pos h5, if_pos h5]
            simp [h1, Ne.symm h1]
          · rw [if_neg h5, if_neg h5]

/-- C10: a keyword whose trimmed form begins and ends with a matching quote
pair and whose inner content normalizes to the empty string is classified
Exact and matches every non-empty message, because the empty phrase is a
substring of every normalized text. -/
theorem empty_exact_keyword_matches (text keyword : List Char)
    (hq : (jsTrim keyword).head? = some '"' ∧
          (jsTrim keyword).getLast? = some '"' ∨
        (jsTrim keyword).head? = some '«' ∧
          (jsTrim keyword).getLast? = some '»' ∨
        (jsTrim keyword).head? = some (Char.ofNat 39) ∧
          (jsTrim keyword).getLast? = some (Char.ofNat 39))
    (hempty : normalizeText (sliceInner (jsTrim keyword)) = [])
    (htext : text ≠ []) :
    (parseKeywordMode keyword).isExact = true ∧
    (matchKeywords text [keyword]).matched = true ∧
    keyword ∈ (matchKeywords text [keyword]).matchedKeywords := by
  have hpm : parseKeywordMode keyword =
      ⟨true, false, sliceInner (jsTrim keyword)⟩ := by
    have hnotbr : ((jsTrim keyword).head? = some '[' &&
        (jsTrim keyword).getLast? = some ']') = false := by
      rcases hq with ⟨h, _⟩ | ⟨h, _⟩ | ⟨h, _⟩ <;> simp [h]
    have hq' : (((jsTrim keyword).head? = some '"' &&
          (jsTrim keyword).getLast? = some '"') ||
        ((jsTrim keyword).head? = some '«' &&
          (jsTrim keyword).getLast? = some '»') ||
        ((jsTrim keyword).head? = some (Char.ofNat 39) &&
          (jsTrim keyword).getLast? = some (Char.ofNat 39))) = true := by
      rcases hq with ⟨h1, h2⟩ | ⟨h1, h2⟩ | ⟨h1, h2⟩ <;> simp [h1, h2]
    simp [parseKeywordMode, hnotbr, hq']
  have hkw : ∀ nt tw ts, matchKeyword nt tw ts keyword =
      some ⟨keyword, strL "exact (strict)", sliceInner (jsTrim keyword)⟩ := by
    intro nt tw ts
    simp [matchKeyword, hpm, hempty, includesSub_nil]
  have hguard : (text.isEmpty || ([keyword] : List (List Char)).isEmpty) = false := by
    simp [List.isEmpty_iff, htext]
  refine ⟨by simp [hpm], ?_, ?_⟩ <;>
    simp [matchKeywords, hguard, hkw, dedupFirst, dedupFirstAux, htext]

/-- Witness for C10: the keyword `""` is Exact with empty phrase and
matches the message `hi`. -/
theorem empty_exact_keyword_matches_witness :
    (parseKeywordMode (strL "\"\"")).isExact = true ∧
    (matchKeywords (strL "hi") [strL "\"\""]).matched = true ∧
    strL "\"\"" ∈ (matchKeywords (strL "hi") [strL "\"\""]).matchedKeywords :=
  empty_exact_keyword_matches (strL "hi") (strL "\"\"")
    (Or.inl ⟨by decide, by decide⟩) (by decide) (by decide)


/-- The keyword fold of `matchKeywords` collects exactly the keywords whose
per-keyword cascade succeeds, in list order, appended to the accumulator. -/
theorem matchFold_fst (nt : List Char) (tw ts : List (List Char))
    (kws : List (List Char)) :
    ∀ acc : List (List Char) × List MatchDetail,
    (kws.foldl (fun acc kw =>
      match matchKeyword nt tw ts kw with
      | some d => (acc.1 ++ [kw], acc.2 ++ [d])
      | none => acc) acc).1 =
      acc.1 ++ kws.filter (fun kw => (matchKeyword nt tw ts kw).isSome) := by
  induction kws with
  | nil => intro acc; simp
  | cons kw kws ih =>
    intro acc
    rw [List.foldl_cons, ih, List.filter_cons]
    cases h : matchKeyword nt tw ts kw with
    | some d => simp [h]
    | none => simp [h]

/-- On an Exact-mode keyword the per-keyword cascade is the strict substring
test and nothing else. -/
theorem matchKeyword_exact (nt : List Char) (tw ts : List (List Char))
    (kw : List Char) (hex : (parseKeywordMode kw).isExact = true) :
    matchKeyword nt tw ts kw =
      if includesSub nt (normalizeText (parseKeywordMode kw).cleanKeyword) = true
      then some ⟨kw, strL "exact (strict)", (parseKeywordMode kw).cleanKeyword⟩
      else none := by
  unfold matchKeyword
  dsimp only
  rw [if_pos hex]

/-- C3 counterexample: at the empty message, the Exact rule `""` has its
normalized phrase (empty) as a substring of the normalized message text
(also empty), yet `match` reports no match — the empty-input guard fires
before the Exact substring test, so the claim fails for the empty message. -/
theorem exact_mode_counterexample :
    (parseKeywordMode (strL "\"\"")).isExact = true ∧
    includesSub (normalizeText [])
      (normalizeText (parseKeywordMode (strL "\"\"")).cleanKeyword) = true ∧
    (matchKeywords [] [strL "\"\""]).matched = false ∧
    strL "\"\"" ∉ (matchKeywords [] [strL "\"\""]).matchedKeywords := by
  refine ⟨by decide, by decide, by decide, by decide⟩

/-- C3 (amended to non-empty messages): for every Exact-mode keyword rule
and every non-empty message, the rule is reported matched exactly when the
normalized message text contains the normalized phrase as a substring — no
other strategy contributes — and "Head of Growth" does not match
`Head Growth` but does match `We need a Head of Growth now`. -/
theorem exact_mode_spec :
    (∀ (text : List Char) (keywords : List (List Char)) (kw : List Char),
      (parseKeywordMode kw).isExact = true → text ≠ [] →
      (kw ∈ (matchKeywords text keywords).matchedKeywords ↔
        kw ∈ keywords ∧
        includesSub (normalizeText text)
          (normalizeText (parseKeywordMode kw).cleanKeyword) = true)) ∧
    (matchKeywords (strL "Head Growth") [strL "\"Head of Growth\""]).matched
      = false ∧
    (matchKeywords (strL "We need a Head of Growth now")
      [strL "\"Head of Growth\""]).matched = true := by
  refine ⟨?_, by decide, by decide⟩
  intro text keywords kw hex htext
  rcases keywords with _ | ⟨k0, ks⟩
  · simp [matchKeywords]
  · have hguard : (text.isEmpty ||
        ((k0 :: ks : List (List Char))).isEmpty) = false := by
      simp [List.isEmpty_iff, htext]
    simp only [matchKeywords, hguard, Bool.false_eq_true, if_false]
    rw [dedupFirst, mem_dedupFirstAux, matchFold_fst, List.nil_append,
      List.mem_filter]
    simp only [List.not_mem_nil, not_false_eq_true, and_true]
    rw [matchKeyword_exact _ _ _ _ hex]
    cases hb : includesSub (normalizeText text)
        (normalizeText (parseKeywordMode kw).cleanKeyword) <;> simp [hb]

/-- Witness for C3: the quoted keyword is reported matched on the adjacent
phrasing via the Exact substring rule. -/
theorem exact_mode_spec_witness :
    strL "\"Head of Growth\"" ∈ (matchKeywords
      (strL "We need a Head of Growth now")
      [strL "\"Head of Growth\""]).matchedKeywords :=
  (exact_mode_spec.1 (strL "We need a Head of Growth now")
    [strL "\"Head of Growth\""] (strL "\"Head of Growth\"") (by decide)
    (by decide)).2 ⟨by decide, by decide⟩

/-- With no message tokens, the synonym scan finds nothing. -/
theorem findSynLoop_nil (syns : List (List Char)) :
    findSynLoop [] [] syns = none := by
  induction syns with
  | nil => rfl
  | cons s rest ih => simp [findSynLoop, ih]

/-- With no message tokens, the fuzzy scan finds nothing. -/
theorem findFuzzyLoop_nil (w : List Char) : findFuzzyLoop w [] = none := rfl

/-- With no message tokens, word-level resolution fails. -/
theorem findWordInText_nil (p : List Char) : findWordInText p [] [] = none := by
  unfold findWordInText
  dsimp only
  rw [List.findIdx?_nil, List.findIdx?_nil, findSynLoop_nil, findFuzzyLoop_nil]
  simp only [ite_self]

/-- The all-required loop succeeds exactly when every part resolves through
`findWordInText`. -/
theorem allRequiredLoop_isSome (tw ts : List (List Char))
    (parts : List (List Char)) :
    (allRequiredLoop tw ts parts).isSome =
      parts.all (fun p => (findWordInText p tw ts).isSome) := by
  induction parts with
  | nil => simp [allRequiredLoop]
  | cons p ps ih =>
    cases h : findWordInText p tw ts with
    | some r =>
      obtain ⟨mt, mw⟩ := r
      simp only [allRequiredLoop, h, List.all_cons, Option.isSome_some,
        Bool.true_and, ← ih]
      cases allRequiredLoop tw ts ps <;> simp
    | none => simp [allRequiredLoop, h]

/-- A parsed keyword is never Exact and AllRequired at once. -/
theorem parseKeywordMode_not_both (kw : List Char) :
    ¬((parseKeywordMode kw).isExact = true ∧
      (parseKeywordMode kw).isAllRequired = true) := by
  unfold parseKeywordMode
  dsimp only
  split_ifs <;> simp

/-- On an AllRequired keyword with more than one part, the per-keyword
cascade succeeds exactly when every part resolves via `findWordInText`. -/
theorem matchKeyword_allRequired (nt : List Char) (tw ts : List (List Char))
    (kw : List Char) (har : (parseKeywordMode kw).isAllRequired = true)
    (hparts : 1 < ((splitOnSpace
      (normalizeText (parseKeywordMode kw).cleanKeyword)).filter
        (fun w => 1 < w.length)).length) :
    (matchKeyword nt tw ts kw).isSome =
      ((splitOnSpace (normalizeText (parseKeywordMode kw).cleanKeyword)).filter
        (fun w => 1 < w.length)).all
        (fun p => (findWordInText p tw ts).isSome) := by
  have hex : (parseKeywordMode kw).isExact = false := by
    by_cases h : (parseKeywordMode kw).isExact = true
    · exact absurd ⟨h, har⟩ (parseKeywordMode_not_both kw)
    · simpa using h
  unfold matchKeyword
  dsimp only
  rw [if_neg (by simp [hex]), if_pos (by simp [har, decide_eq_true hparts])]
  rw [← allRequiredLoop_isSome]
  cases allRequiredLoop tw ts ((splitOnSpace
      (normalizeText (parseKeywordMode kw).cleanKeyword)).filter
        (fun w => 1 < w.length)) with
  | none => rfl
  | some r => obtain ⟨fw, mt⟩ := r; rfl

/-- Membership in the match result is membership in the keyword list plus
success of the per-keyword cascade against the tokenized message. -/
theorem mem_matchedKeywords (text : List Char) (keywords : List (List Char))
    (kw : List Char) (htext : text ≠ []) (hkws : keywords ≠ []) :
    kw ∈ (matchKeywords text keywords).matchedKeywords ↔
      kw ∈ keywords ∧ (matchKeyword (normalizeText text)
        ((splitOnSpace (normalizeText text)).filter
          (fun w => 1 < w.length && !(stopWords.contains w)))
        (((splitOnSpace (normalizeText text)).filter
          (fun w => 1 < w.length && !(stopWords.contains w))).map stem)
        kw).isSome = true := by
  have hguard : (text.isEmpty || keywords.isEmpty) = false := by
    simp [List.isEmpty_iff, htext, hkws]
  simp only [matchKeywords, hguard, Bool.false_eq_true, if_false]
  rw [dedupFirst, mem_dedupFirstAux, matchFold_fst, List.nil_append,
    List.mem_filter]
  simp only [List.not_mem_nil, not_false_eq_true, and_true]

/-- C4 (amended): for every AllRequired rule with more than one part, the
rule is reported matched exactly when every part resolves through the
source's `findWordInText` — which tries exact token equality, stem equality
(stem length ≥ 4), synonym-stem equality (word length ≥ 4, synonyms filtered
to length ≥ 4 with stem length ≥ 4), and finally fuzzy matching (length ≥ 6,
threshold 0.8) — with no partial credit: one unresolved part fails the rule. -/
theorem all_required_spec (text : List Char) (keywords : List (List Char))
    (kw : List Char) (har : (parseKeywordMode kw).isAllRequired = true)
    (hparts : 1 < ((splitOnSpace
      (normalizeText (parseKeywordMode kw).cleanKeyword)).filter
        (fun w => 1 < w.length)).length) :
    kw ∈ (matchKeywords text keywords).matchedKeywords ↔
      kw ∈ keywords ∧
      ((splitOnSpace (normalizeText (parseKeywordMode kw).cleanKeyword)).filter
        (fun w => 1 < w.length)).all
        (fun p => (findWordInText p
          ((splitOnSpace (normalizeText text)).filter
            (fun w => 1 < w.length && !(stopWords.contains w)))
          (((splitOnSpace (normalizeText text)).filter
            (fun w => 1 < w.length && !(stopWords.contains w))).map stem)).isSome)
        = true := by
  rcases keywords with _ | ⟨k0, ks⟩
  · simp [matchKeywords]
  · by_cases htext : text = []
    · subst htext
      have hparts0 : ((splitOnSpace
          (normalizeText (parseKeywordMode kw).cleanKeyword)).filter
            (fun w => 1 < w.length)) ≠ [] := by
        intro h
        rw [h] at hparts
        simp at hparts
      obtain ⟨p0, hp0⟩ := List.exists_mem_of_ne_nil _ hparts0
      have hnil : ((splitOnSpace (normalizeText ([] : List Char))).filter
          (fun w => 1 < w.length && !(stopWords.contains w))) = [] := by decide
      constructor
      · intro h
        simp [matchKeywords] at h
      · rintro ⟨-, hall⟩
        rw [List.all_eq_true] at hall
        have := hall p0 hp0
        rw [hnil] at this
        simp only [List.map_nil, findWordInText_nil] at this
        cases this
    · rw [mem_matchedKeywords text _ kw htext (by simp)]
      rw [matchKeyword_allRequired _ _ _ _ har hparts]

/-- C4 counterexample: for the rule `[дизайнер макет]` against the message
`ux макет`, every part resolves under the claim's three-strategy word-level
resolution (`макет` by exact token equality, `дизайнер` because its synonym
`ux` has a stem equal to the message-token stem `ux`), yet the rule does not
match: the source's synonym stage skips synonyms shorter than 4 characters,
so `дизайнер` fails to resolve and the rule fails. -/
theorem all_required_counterexample :
    (parseKeywordMode (strL "[дизайнер макет]")).isAllRequired = true ∧
    ((splitOnSpace (normalizeText
      (parseKeywordMode (strL "[дизайнер макет]")).cleanKeyword)).filter
        (fun w => 1 < w.length)) = [strL "дизайнер", strL "макет"] ∧
    ((splitOnSpace (normalizeText (strL "ux макет"))).filter
      (fun w => 1 < w.length && !(stopWords.contains w))) =
        [strL "ux", strL "макет"] ∧
    ([strL "ux", strL "макет"].map stem) = [strL "ux", strL "макет"] ∧
    ([strL "дизайнер", strL "макет"].all
      (fun p => specWordResolution p [strL "ux", strL "макет"]
        [strL "ux", strL "макет"])) = true ∧
    (matchKeywords (strL "ux макет") [strL "[дизайнер макет]"]).matched
      = false ∧
    strL "[дизайнер макет]" ∉
      (matchKeywords (strL "ux макет")
        [strL "[дизайнер макет]"]).matchedKeywords := by
  refine ⟨by decide, by decide, by decide, by decide, by decide, by decide,
    by decide⟩

/-- Witness for C4: `[head of marketing]` matches a message containing all
three tokens in scrambled order. -/
theorem all_required_spec_witness :
    strL "[head of marketing]" ∈ (matchKeywords
      (strL "marketing of head yes")
      [strL "[head of marketing]"]).matchedKeywords :=
  (all_required_spec (strL "marketing of head yes")
    [strL "[head of marketing]"] (strL "[head of marketing]")
    (by decide) (by decide)).2 ⟨by decide, by decide⟩

/-- A `replace` pass distributes over append. -/
theorem replChar_append (sp : Char) (a b : List Char) :
    replChar sp (a ++ b) = replChar sp a ++ replChar sp b := by
  induction a with
  | nil => rfl
  | cons x a ih => by_cases h : x = sp <;> simp [replChar, h, ih]

/-- `escapeMarkdown` processes one character at a time. -/
theorem escapeMarkdown_cons (c : Char) (s : List Char) :
    escapeMarkdown (c :: s) = escOne c ++ escapeMarkdown s := by
  show escapeMarkdown ([c] ++ s) = _
  simp only [escapeMarkdown, replChar_append]
  congr 1
  by_cases h1 : c = '*'
  · subst h1; rfl
  by_cases h2 : c = '_'
  · subst h2; rfl
  by_cases h3 : c = '['
  · subst h3; rfl
  by_cases h4 : c = ']'
  · subst h4; rfl
  by_cases h5 : c = '`'
  · subst h5; rfl
  simp [replChar, escOne, h1, h2, h3, h4, h5]

/-- `escapeMarkdown` prefixes every special-character occurrence with a
backslash: it equals the character-by-character escape demanded by the
spec. -/
theorem escapeMarkdown_eq_flatMap (s : List Char) :
    escapeMarkdown s = s.flatMap escOne := by
  induction s with
  | nil => rfl
  | cons c s ih => rw [escapeMarkdown_cons, ih, List.flatMap_cons]

/-- C6 counterexample: with sender username `a_b` (all other fields free of
markup characters), the composed notification contains the interpolation
`@a_b` with an unescaped underscore; since the fixed template contains no
underscore, the claim — every user-controlled field fully escaped — would
force every underscore in the output to carry a preceding backslash, and it
does not. -/
theorem escape_counterexample :
    underscoresEscaped (formatNotification
      { firstName := strL "Ann", username := some (strL "a_b"),
        userId := strL "7", messageText := strL "hello",
        chatTitle := strL "chat", chatId := strL "-1001",
        messageId := strL "2", matchedKeywords := [strL "hello"],
        matchDetails := [⟨strL "hello", strL "exact", strL "hello"⟩] })
      = false := by decide

/-- C6 (amended): in the composed notification only the sender display
name, the truncated message body, and the chat title are escaped (each
character-by-character, specials gaining a preceding backslash); the
username display, user id, and rendered match details are interpolated
without escaping, as the surrounding context terms show. -/
theorem formatNotification_escapes (d : NotificationData) :
    ∃ pre mid1 mid2 post : List Char,
      formatNotification d =
        pre ++ (d.firstName.flatMap escOne) ++ mid1 ++
        ((truncateText d.messageText 500).flatMap escOne) ++ mid2 ++
        (d.chatTitle.flatMap escOne) ++ post := by
  refine ⟨strL "🎯 *Найдено совпадение!*\n" ++
      fmtKeywordsDisplay d.matchedKeywords d.matchDetails ++ strL "\n\n👤 *",
    strL "*\n├ Username: " ++ fmtUsernameDisplay d.username ++
      strL "\n├ User ID: `" ++ d.userId ++ strL "`\n\n💬 *Сообщение:*\n\"",
    strL "\"\n\n📍 *Чат:* [",
    strL "](" ++ fmtMessageLink d.chatId d.messageId ++ strL ")", ?_⟩
  unfold formatNotification
  rw [← escapeMarkdown_eq_flatMap, ← escapeMarkdown_eq_flatMap,
    ← escapeMarkdown_eq_flatMap]
  simp [List.append_assoc]

/-- C2: for every processed message, the dedup identity triple and the
per-user content-hash record are inserted only after a delivery attempt
succeeds: if neither the primary send nor the button-stripped retry
succeeds, both stores are unchanged (so delivery stays retryable), and when
a delivery attempt was made and succeeded, exactly the triple
`(userId, chatId, messageId)` and the pair `(userId, contentHash)` are
appended. -/
theorem records_only_after_delivery (md5 : List Char → List Char)
    (captures : List (List Char × List Char)) (userId : List Char)
    (ev : MsgEvent) (userRow : Option UserRec)
    (settingsRow : Option MonitorSettings) (primary : SendOutcome)
    (retry : RetryOutcome) (st : MonState) :
    (deliverySucceeded primary retry = false →
      (handleNewMessage md5 captures userId ev userRow settingsRow primary
        retry st).1.sentNotifs = st.sentNotifs ∧
      (handleNewMessage md5 captures userId ev userRow settingsRow primary
        retry st).1.msgHashes = st.msgHashes) ∧
    ((handleNewMessage md5 captures userId ev userRow settingsRow primary
        retry st).2.sendAttempts ≠ [] →
      deliverySucceeded primary retry = true →
      (handleNewMessage md5 captures userId ev userRow settingsRow primary
        retry st).1.sentNotifs =
        st.sentNotifs ++ [(userId, ev.chatId, ev.messageId)] ∧
      (handleNewMessage md5 captures userId ev userRow settingsRow primary
        retry st).1.msgHashes =
        st.msgHashes ++ [(userId, createMessageHash md5 ev.text)]) := by
  unfold handleNewMessage
  dsimp only
  by_cases h1 : ev.text.isEmpty = true
  · rw [if_pos h1]
    exact ⟨fun _ => ⟨rfl, rfl⟩, fun h => absurd rfl h⟩
  · rw [if_neg h1]
    rcases userRow with _ | ⟨u⟩
    · exact ⟨fun _ => ⟨rfl, rfl⟩, fun h => absurd rfl h⟩
    · rcases settingsRow with _ | ⟨⟨kws⟩⟩
      · exact ⟨fun _ => ⟨rfl, rfl⟩, fun h => absurd rfl h⟩
      · dsimp only
        by_cases h2 : (!(analyze captures ev.text kws []).matched) = true
        · rw [if_pos h2]
          exact ⟨fun _ => ⟨rfl, rfl⟩, fun h => absurd rfl h⟩
        · rw [if_neg h2]
          by_cases h3 : (userId, ev.chatId, ev.messageId) ∈ st.sentNotifs
          · rw [if_pos h3]
            exact ⟨fun _ => ⟨rfl, rfl⟩, fun h => absurd rfl h⟩
          · rw [if_neg h3]
            by_cases h4 : ev.senderId ≠ strL "unknown" ∧
                (userId, ev.senderId) ∈ st.blockedAuthors
            · rw [if_pos h4]
              exact ⟨fun _ => ⟨rfl, rfl⟩, fun h => absurd rfl h⟩
            · rw [if_neg h4]
              by_cases h5 : (userId, createMessageHash md5 ev.text) ∈ st.msgHashes
              · rw [if_pos h5]
                exact ⟨fun _ => ⟨rfl, rfl⟩, fun h => absurd rfl h⟩
              · rw [if_neg h5]
                rcases u with ⟨_ | bcid⟩
                · exact ⟨fun _ => ⟨rfl, rfl⟩, fun h => absurd rfl h⟩
                · dsimp only
                  by_cases h6 : bcid.isEmpty = true
                  · rw [if_pos h6]
                    exact ⟨fun _ => ⟨rfl, rfl⟩, fun h => absurd rfl h⟩
                  · rw [if_neg h6]
                    rcases primary with _ | _ | _
                    · refine ⟨fun hfail => ?_, fun _ _ => ?_⟩
                      · simp [deliverySucceeded] at hfail
                      · exact ⟨by dsimp only; rw [dbInsert, if_neg h3],
                          by dsimp only; rw [dbInsert, if_neg h5]⟩
                    · rcases retry with _ | _
                      · refine ⟨fun hfail => ?_, fun _ _ => ?_⟩
                        · simp [deliverySucceeded] at hfail
                        · exact ⟨by dsimp only; rw [dbInsert, if_neg h3],
                            by dsimp only; rw [dbInsert, if_neg h5]⟩
                      · refine ⟨fun _ => ⟨rfl, rfl⟩, fun _ hsucc => ?_⟩
                        simp [deliverySucceeded] at hsucc
                    · refine ⟨fun _ => ⟨rfl, rfl⟩, fun _ hsucc => ?_⟩
                      simp [deliverySucceeded] at hsucc

/-- Witness for C2: on a concrete matching message, a failed delivery
(`otherErr`) leaves both stores unchanged, and a successful delivery
appends exactly the identity triple and the content-hash pair. -/
theorem records_only_after_delivery_witness :
    ((handleNewMessage (fun l => l) [] (strL "u1")
        ⟨strL "hi", strL "10", strL "5", strL "s1", some (strL "Bob"),
          none, some (strL "Chat")⟩
        (some ⟨some (strL "77")⟩) (some ⟨[strL "hi"]⟩)
        SendOutcome.otherErr RetryOutcome.err
        ⟨0, 0, 0, [], [], []⟩).1.sentNotifs =
      (⟨0, 0, 0, [], [], []⟩ : MonState).sentNotifs ∧
      (handleNewMessage (fun l => l) [] (strL "u1")
        ⟨strL "hi", strL "10", strL "5", strL "s1", some (strL "Bob"),
          none, some (strL "Chat")⟩
        (some ⟨some (strL "77")⟩) (some ⟨[strL "hi"]⟩)
        SendOutcome.otherErr RetryOutcome.err
        ⟨0, 0, 0, [], [], []⟩).1.msgHashes =
      (⟨0, 0, 0, [], [], []⟩ : MonState).msgHashes) ∧
    ((handleNewMessage (fun l => l) [] (strL "u1")
        ⟨strL "hi", strL "10", strL "5", strL "s1", some (strL "Bob"),
          none, some (strL "Chat")⟩
        (some ⟨some (strL "77")⟩) (some ⟨[strL "hi"]⟩)
        SendOutcome.ok RetryOutcome.err
        ⟨0, 0, 0, [], [], []⟩).1.sentNotifs =
      (⟨0, 0, 0, [], [], []⟩ : MonState).sentNotifs ++
        [(strL "u1", strL "10", strL "5")] ∧
      (handleNewMessage (fun l => l) [] (strL "u1")
        ⟨strL "hi", strL "10", strL "5", strL "s1", some (strL "Bob"),
          none, some (strL "Chat")⟩
        (some ⟨some (strL "77")⟩) (some ⟨[strL "hi"]⟩)
        SendOutcome.ok RetryOutcome.err
        ⟨0, 0, 0, [], [], []⟩).1.msgHashes =
      (⟨0, 0, 0, [], [], []⟩ : MonState).msgHashes ++
        [(strL "u1", createMessageHash (fun l => l) (strL "hi"))]) :=
  ⟨(records_only_after_delivery (fun l => l) [] (strL "u1")
      ⟨strL "hi", strL "10", strL "5", strL "s1", some (strL "Bob"),
        none, some (strL "Chat")⟩
      (some ⟨some (strL "77")⟩) (some ⟨[strL "hi"]⟩)
      SendOutcome.otherErr RetryOutcome.err ⟨0, 0, 0, [], [], []⟩).1
    (by decide),
   (records_only_after_delivery (fun l => l) [] (strL "u1")
      ⟨strL "hi", strL "10", strL "5", strL "s1", some (strL "Bob"),
        none, some (strL "Chat")⟩
      (some ⟨some (strL "77")⟩) (some ⟨[strL "hi"]⟩)
      SendOutcome.ok RetryOutcome.err ⟨0, 0, 0, [], [], []⟩).2
    (by decide) (by decide)⟩

/-- C1 counterexample: a concrete non-empty matching message whose sender
is recorded in the user's block set; the handler still invokes
`keywordMatcher.analyze` (the call counter is 1, not the 0 the claim
demands), and the suppression happens only afterwards. -/
theorem block_gate_counterexample :
    (strL "u1", strL "s1") ∈
      (⟨0, 0, 0, [], [], [(strL "u1", strL "s1")]⟩ : MonState).blockedAuthors ∧
    (⟨strL "hi", strL "10", strL "5", strL "s1", some (strL "Bob"), none,
      some (strL "Chat")⟩ : MsgEvent).senderId ≠ strL "unknown" ∧
    (handleNewMessage (fun l => l) [] (strL "u1")
      ⟨strL "hi", strL "10", strL "5", strL "s1", some (strL "Bob"), none,
        some (strL "Chat")⟩
      (some ⟨some (strL "77")⟩) (some ⟨[strL "hi"]⟩)
      SendOutcome.ok RetryOutcome.ok
      ⟨0, 0, 0, [], [], [(strL "u1", strL "s1")]⟩).2.analyzeCalls = 1 := by
  refine ⟨by decide, by decide, by decide⟩

/-- C1 (amended): blocked-author suppression takes effect after match
evaluation but before any delivery attempt: when the sender id is present
and `(userId, senderId)` is in the block store, the handler makes no send
attempt and inserts no dedup or content-hash record — while the Match
Pipeline is still invoked exactly once whenever the message is non-empty
and the user and settings rows load. -/
theorem block_gate_spec (md5 : List Char → List Char)
    (captures : List (List Char × List Char)) (userId : List Char)
    (ev : MsgEvent) (userRow : Option UserRec)
    (settingsRow : Option MonitorSettings) (primary : SendOutcome)
    (retry : RetryOutcome) (st : MonState)
    (hsender : ev.senderId ≠ strL "unknown")
    (hblocked : (userId, ev.senderId) ∈ st.blockedAuthors) :
    (handleNewMessage md5 captures userId ev userRow settingsRow primary
      retry st).2.sendAttempts = [] ∧
    (handleNewMessage md5 captures userId ev userRow settingsRow primary
      retry st).1.sentNotifs = st.sentNotifs ∧
    (handleNewMessage md5 captures userId ev userRow settingsRow primary
      retry st).1.msgHashes = st.msgHashes ∧
    (ev.text ≠ [] → userRow ≠ none → settingsRow ≠ none →
      (handleNewMessage md5 captures userId ev userRow settingsRow primary
        retry st).2.analyzeCalls = 1) := by
  unfold handleNewMessage
  dsimp only
  by_cases h1 : ev.text.isEmpty = true
  · rw [if_pos h1]
    refine ⟨rfl, rfl, rfl, fun htext _ _ => ?_⟩
    rw [List.isEmpty_iff] at h1
    exact absurd h1 htext
  · rw [if_neg h1]
    rcases userRow with _ | ⟨u⟩
    · exact ⟨rfl, rfl, rfl, fun _ hu _ => absurd rfl hu⟩
    · rcases settingsRow with _ | ⟨⟨kws⟩⟩
      · exact ⟨rfl, rfl, rfl, fun _ _ hs => absurd rfl hs⟩
      · dsimp only
        by_cases h2 : (!(analyze captures ev.text kws []).matched) = true
        · rw [if_pos h2]
          exact ⟨rfl, rfl, rfl, fun _ _ _ => rfl⟩
        · rw [if_neg h2]
          by_cases h3 : (userId, ev.chatId, ev.messageId) ∈ st.sentNotifs
          · rw [if_pos h3]
            exact ⟨rfl, rfl, rfl, fun _ _ _ => rfl⟩
          · rw [if_neg h3]
            rw [if_pos ⟨hsender, hblocked⟩]
            exact ⟨rfl, rfl, rfl, fun _ _ _ => rfl⟩

/-- Witness for C1 (amended): on the concrete blocked-sender scenario the
handler makes no send attempt, leaves both stores unchanged, and still runs
the matcher once. -/
theorem block_gate_spec_witness :
    (handleNewMessage (fun l => l) [] (strL "u1")
      ⟨strL "hi", strL "10", strL "5", strL "s1", some (strL "Bob"), none,
        some (strL "Chat")⟩
      (some ⟨some (strL "77")⟩) (some ⟨[strL "hi"]⟩)
      SendOutcome.ok RetryOutcome.ok
      ⟨0, 0, 0, [], [], [(strL "u1", strL "s1")]⟩).2.sendAttempts = [] ∧
    (handleNewMessage (fun l => l) [] (strL "u1")
      ⟨strL "hi", strL "10", strL "5", strL "s1", some (strL "Bob"), none,
        some (strL "Chat")⟩
      (some ⟨some (strL "77")⟩) (some ⟨[strL "hi"]⟩)
      SendOutcome.ok RetryOutcome.ok
      ⟨0, 0, 0, [], [], [(strL "u1", strL "s1")]⟩).1.sentNotifs =
      (⟨0, 0, 0, [], [], [(strL "u1", strL "s1")]⟩ : MonState).sentNotifs ∧
    (handleNewMessage (fun l => l) [] (strL "u1")
      ⟨strL "hi", strL "10", strL "5", strL "s1", some (strL "Bob"), none,
        some (strL "Chat")⟩
      (some ⟨some (strL "77")⟩) (some ⟨[strL "hi"]⟩)
      SendOutcome.ok RetryOutcome.ok
      ⟨0, 0, 0, [], [], [(strL "u1", strL "s1")]⟩).1.msgHashes =
      (⟨0, 0, 0, [], [], [(strL "u1", strL "s1")]⟩ : MonState).msgHashes := by
  have h := block_gate_spec (fun l => l) [] (strL "u1")
    ⟨strL "hi", strL "10", strL "5", strL "s1", some (strL "Bob"), none,
      some (strL "Chat")⟩
    (some ⟨some (strL "77")⟩) (some ⟨[strL "hi"]⟩)
    SendOutcome.ok RetryOutcome.ok
    ⟨0, 0, 0, [], [], [(strL "u1", strL "s1")]⟩ (by decide) (by decide)
  exact ⟨h.1, h.2.1, h.2.2.1⟩
